import Mathlib

/-!
Verification of the pixel-space line index and density renderer in
`src/pixels/kdtree/index.js` (class `AliTVSTree`).

Modelling conventions:
* JavaScript numbers are idealised as `ℚ`.  The literals `-Infinity` and
  `Infinity` that appear in the `brush-x` and `brush-y` branches are modelled
  by the type `ERat := WithBot (WithTop ℚ)`, whose `⊥` and `⊤` compare with
  embedded rationals exactly as the JS infinities compare with finite floats.
* A JavaScript array read `line[i]` on an index that is always in range is
  modelled with a defaulted read `dGet`; a read that can genuinely hit
  `undefined` (and then crash on a property access) is modelled with
  `Option`, `none` standing for the thrown `TypeError`.
* `Math.atan` is an external transcendental function; the filters take it as
  an explicit function parameter `atanF : ℚ → ℚ`, so every theorem below
  holds in particular for the real arctangent.  For a line whose x
  coordinates are ascending, `Math.atan (dy/dx)` agrees with `atan2 dy dx`
  on every segment with `dx > 0`.
* Division by zero in `ℚ` is the junk value `0` where JS would produce
  `Infinity` or `NaN`; this only affects degenerate segments whose two
  endpoints share an x coordinate, which no theorem below relies on.
* The modules `./kdtree` and `./util`, and the helper `mix`, are imported or
  referenced by `index.js` but are not among the sources; they are modelled
  from the spec and marked as such in their doc comments.
-/

/-- A pixel-space point, the element type of a polyline. -/
structure Point where
  x : ℚ
  y : ℚ
deriving DecidableEq

/-- A polyline: the ordered point sequence of one data line. -/
abbrev Line := List Point

/-- Extended rationals: `ℚ` together with `-Infinity` (`⊥`) and `Infinity` (`⊤`). -/
abbrev ERat := WithBot (WithTop ℚ)

/-- Embeds a finite JS number into the extended rationals. -/
def toE (q : ℚ) : ERat := ((q : WithTop ℚ) : ERat)

/-- Array read `line[i]` for index expressions that are provably in range in
the source; out-of-range reads return a junk point. -/
def dGet (line : Line) (i : ℤ) : Point := line.getD i.toNat ⟨0, 0⟩

/-- The integer interval `[lo, hi]` as a list, the index range of a JS
`for (let i = lo; i <= hi; i++)` loop. -/
def intRange (lo hi : ℤ) : List ℤ :=
  (List.range (hi + 1 - lo).toNat).map (fun k : ℕ => lo + (k : ℤ))

/-- Loop body of the lower binary search in `getPixelData`
(`while (l <= r) { mid = (l+r)>>1; if (line[mid].x >= minX) { lp = mid; r = mid-1 } else l = mid+1 }`).
The fuel argument strictly exceeds the initial span `r - l + 1`, which shrinks
by at least one per iteration, so the loop always runs to completion. -/
def lpLoop (line : Line) (minX : ERat) : ℕ → ℤ → ℤ → ℤ → ℤ
  | 0, _, _, lp => lp
  | fuel + 1, l, r, lp =>
    if l ≤ r then
      let mid := (l + r) / 2
      if toE (dGet line mid).x ≥ minX then lpLoop line minX fuel l (mid - 1) mid
      else lpLoop line minX fuel (mid + 1) r lp
    else lp

/-- Result `lp` of the lower binary search: initial state
`l = 0, r = line.length - 1, lp = 0`. -/
def searchLp (line : Line) (minX : ERat) : ℤ :=
  lpLoop line minX (line.length + 1) 0 ((line.length : ℤ) - 1) 0

/-- Loop body of the upper binary search in `getPixelData`
(`while (l <= r) { mid = (l+r)>>1; if (line[mid].x <= maxX) { rp = mid; l = mid+1 } else r = mid-1 }`). -/
def rpLoop (line : Line) (maxX : ERat) : ℕ → ℤ → ℤ → ℤ → ℤ
  | 0, _, _, rp => rp
  | fuel + 1, l, r, rp =>
    if l ≤ r then
      let mid := (l + r) / 2
      if toE (dGet line mid).x ≤ maxX then rpLoop line maxX fuel (mid + 1) r mid
      else rpLoop line maxX fuel l (mid - 1) rp
    else rp

/-- Result `rp` of the upper binary search: initial state
`l = 0, r = line.length - 1, rp = line.length - 1`. -/
def searchRp (line : Line) (maxX : ERat) : ℤ :=
  rpLoop line maxX (line.length + 1) 0 ((line.length : ℤ) - 1) ((line.length : ℤ) - 1)

/-- Modelled from the spec: the helper `mix` called by `getPixelData` is not
among the sources (it is neither defined in `index.js` nor imported there).
Per the spec it is the linear interpolation between two sampled points,
evaluated at a given x coordinate: the boundary crossing of the segment with
a vertical line. -/
def mix (p q : Point) (x : ℚ) : Point :=
  ⟨x, p.y + (q.y - p.y) * ((x - p.x) / (q.x - p.x))⟩

/-- Refinement predicate shared by the `brush-box` and `brush-x` branches of
`getPixelData` (the two code blocks are identical except for the bound
constants): locate the sub-range `[lp, rp]` by binary search, reject if an
interior point or one of the two `mix` boundary interpolations leaves the y
band.  Note that the source interpolates the right boundary segment at
`minX` as well (`mix(line[rp], line[rp + 1], minX)`). -/
def brushRefine (line : Line) (minX maxX : ℚ) (minY maxY : ERat) : Bool :=
  let lp := searchLp line (toE minX)
  let rp := searchRp line (toE maxX)
  ((intRange lp rp).all fun i =>
      !(decide (toE (dGet line i).y < minY) || decide (toE (dGet line i).y > maxY))) &&
  (if lp ≠ 0 then
      let tmpY := (mix (dGet line (lp - 1)) (dGet line lp) minX).y
      !(decide (toE tmpY < minY) || decide (toE tmpY > maxY))
    else true) &&
  (if rp < (line.length : ℤ) - 1 then
      let tmpY := (mix (dGet line rp) (dGet line (rp + 1)) minX).y
      !(decide (toE tmpY < minY) || decide (toE tmpY > maxY))
    else true)

/-- The `brush-box` refinement filter of `getPixelData`: all four bounds
finite. -/
def brushBoxFilter (line : Line) (lowX lowY highX highY : ℚ) : Bool :=
  brushRefine line lowX highX (toE lowY) (toE highY)

/-- The `brush-x` refinement filter of `getPixelData`: the source fixes
`minY = -Infinity, maxY = Infinity`. -/
def brushXFilter (line : Line) (lowX highX : ℚ) : Bool :=
  brushRefine line lowX highX ⊥ ⊤

/-- The `brush-y` refinement filter of `getPixelData`: the source fixes
`minX = -Infinity, maxX = Infinity`, so the binary searches compare x against
the infinities, and the two boundary branches would interpolate at
`-Infinity`.  The float value of that interpolation is abstracted as the
parameter `mneg` (with `minX = -Infinity` the searches always return
`lp = 0` and `rp = line.length - 1`, so neither boundary branch ever runs). -/
def brushYFilter (line : Line) (lowY highY : ℚ) (mneg : Point → Point → ERat) : Bool :=
  let lp := searchLp line ⊥
  let rp := searchRp line ⊤
  ((intRange lp rp).all fun i =>
      !(decide ((dGet line i).y < lowY) || decide ((dGet line i).y > highY))) &&
  (if lp ≠ 0 then
      let tmpY := mneg (dGet line (lp - 1)) (dGet line lp)
      !(decide (tmpY < toE lowY) || decide (tmpY > toE highY))
    else true) &&
  (if rp < (line.length : ℤ) - 1 then
      let tmpY := mneg (dGet line rp) (dGet line (rp + 1))
      !(decide (tmpY < toE lowY) || decide (tmpY > toE highY))
    else true)

/-- The `angular` refinement filter of `getPixelData`.  The source first
reads `line[0].x` and `line[line.length - 1].x` for the extent
short-circuit; on an empty candidate this dereferences `undefined` and
throws, modelled by `none`.  `atanF` abstracts `Math.atan`. -/
def angularFilter (line : Line) (lowX lowSlope highX highSlope : ℚ)
    (atanF : ℚ → ℚ) : Option Bool :=
  match line.head?, line.getLast? with
  | some p0, some pn =>
    if p0.x > highX || pn.x < lowX then some false
    else
      let lp := searchLp line (toE lowX)
      let rp := searchRp line (toE highX)
      some (((intRange lp (rp - 1)).all fun i =>
          let ang := atanF (((dGet line (i + 1)).y - (dGet line i).y) /
            ((dGet line (i + 1)).x - (dGet line i).x))
          !(decide (ang < lowSlope) || decide (ang > highSlope))) &&
        (if lp ≠ 0 then
            let ang := atanF (((dGet line (lp - 1)).y - (dGet line lp).y) /
              ((dGet line (lp - 1)).x - (dGet line lp).x))
            !(decide (ang < lowSlope) || decide (ang > highSlope))
          else true) &&
        (if rp < (line.length : ℤ) - 1 then
            let ang := atanF (((dGet line (rp + 1)).y - (dGet line rp).y) /
              ((dGet line (rp + 1)).x - (dGet line rp).x))
            !(decide (ang < lowSlope) || decide (ang > highSlope))
          else true))
  | _, _ => none

/-- A line is x-sorted when its point sequence is ascending in x. -/
def SortedX (line : Line) : Prop := line.Sorted (fun p q => p.x ≤ q.x)

/-- Squared euclidean distance between two pixel positions. -/
def sqDist (px py qx qy : ℚ) : ℚ := (px - qx) ^ 2 + (py - qy) ^ 2

/-- Minimal squared distance from a query position to the sampled points of a
line (`⊤` for a line without points). -/
def lineMinDist (line : Line) (x y : ℚ) : ERat :=
  line.foldl (fun m p => min m (toE (sqDist p.x p.y x y))) ⊤

/-- Bounding-box test of one candidate line against an axis-aligned
rectangle with possibly infinite corners. -/
def bboxHit (line : Line) (lowX lowY highX highY : ERat) : Bool :=
  !line.isEmpty &&
  decide (lowX ≤ line.foldl (fun m p => max m (toE p.x)) ⊥) &&
  decide (line.foldl (fun m p => min m (toE p.x)) ⊤ ≤ highX) &&
  decide (lowY ≤ line.foldl (fun m p => max m (toE p.y)) ⊥) &&
  decide (line.foldl (fun m p => min m (toE p.y)) ⊤ ≤ highY)

/-- Modelled from the spec: the kd-tree module `./kdtree` is not among the
sources.  Its `brush` range query returns the identities of all lines whose
bounding geometry intersects the query rectangle — conservative candidates,
empty for an empty data set. -/
def kdtreeBrush (pixelData : List Line) (lowX lowY highX highY : ERat) : List ℕ :=
  (List.range pixelData.length).filter
    (fun id => bboxHit (pixelData.getD id []) lowX lowY highX highY)

/-- Modelled from the spec: the `angular` index query of the missing kd-tree
module.  The spec only requires conservative (over-inclusive) candidates, so
the model keeps every line whose x extent intersects `[lowX, highX]` and does
not constrain the slope dimension. -/
def kdtreeAngular (pixelData : List Line) (lowX highX : ℚ) : List ℕ :=
  (List.range pixelData.length).filter
    (fun id => bboxHit (pixelData.getD id []) (toE lowX) ⊥ (toE highX) ⊤)

/-- Modelled from the spec: the `knn` query of the missing kd-tree module,
`nearest(point, k)` — the k line identities closest to the query point,
ordered by ascending distance; empty on an empty data set. -/
def kdtreeKnn (pixelData : List Line) (x y : ℚ) (k : ℕ) : List ℕ :=
  (((List.range pixelData.length).filter
      (fun id => !(pixelData.getD id []).isEmpty)).insertionSort
    (fun a b => lineMinDist (pixelData.getD a []) x y ≤ lineMinDist (pixelData.getD b []) x y)).take k

/-- Modelled from the spec: the `rnn` query of the missing kd-tree module,
`withinRadius(point, r)` — every line identity with geometry within radius
`r`; empty on an empty data set. -/
def kdtreeRnn (pixelData : List Line) (x y r : ℚ) : List ℕ :=
  (List.range pixelData.length).filter
    (fun id => decide (lineMinDist (pixelData.getD id []) x y ≤ toE (r ^ 2)))

/-- Perpendicular projection of a query position onto one segment, clamped
to the segment. -/
def closestOnSegment (a b : Point) (x y : ℚ) : Point :=
  let dx := b.x - a.x
  let dy := b.y - a.y
  let t := max 0 (min 1 (((x - a.x) * dx + (y - a.y) * dy) / (dx ^ 2 + dy ^ 2)))
  ⟨a.x + t * dx, a.y + t * dy⟩

/-- Modelled from the spec: `getClosestPointOnLines` from the missing
`./util` module — the exact closest point of a polyline to the query
position, by point-to-segment projection over all segments. -/
def getClosestPointOnLines (x y : ℚ) (line : Line) : Point :=
  match line with
  | [] => ⟨0, 0⟩
  | p :: rest =>
    ((line.zip rest).map (fun pq => closestOnSegment pq.1 pq.2 x y)).foldl
      (fun best c =>
        if sqDist c.x c.y x y < sqDist best.x best.y x y then c else best) p

/-- One accumulator cell: the per-line-identity accumulated weights of one
pixel (the JS object literal `{}` keyed by line id). -/
abbrev Cell := List (ℕ × ℚ)

/-- The slope-pixel accumulator `_slopePixelCache`: an array of `width`
columns, each an array of `height` cells. -/
abbrev Cache := List (List Cell)

/-- Adds a weight to the entry of one line id in a cell, accumulating when
the id is already present (JS object insert-or-add). -/
def addEntry : Cell → ℕ → ℚ → Cell
  | [], id, w => [(id, w)]
  | (i, v) :: t, id, w =>
    if i = id then (i, v + w) :: t else (i, v) :: addEntry t id w

/-- Writes one accumulated weight into the cell at column `cx`, row `cy`;
out-of-range positions are left unchanged. -/
def stampCell (c : Cache) (cx cy : ℕ) (id : ℕ) (w : ℚ) : Cache :=
  c.set cx ((c.getD cx []).set cy (addEntry ((c.getD cx []).getD cy []) id w))

/-- Modelled from the spec: `brensenhamArr` from the missing `./util` module
rasterises one segment with an integer-grid (Bresenham style) line-drawing
algorithm and accumulates the segment slope into every touched cell under
the line identity.  The touched-cell pattern of a segment is abstracted as
the parameter `bres`; all theorems below hold for every such pattern. -/
def brensenhamArr (bres : Point → Point → List (ℕ × ℕ)) (p q : Point)
    (cache : Cache) (id : ℕ) (slope : ℚ) : Cache :=
  (bres p q).foldl (fun acc cell => stampCell acc cell.1 cell.2 id slope) cache

/-- The consecutive point pairs of a line (`line[i], line[i+1]`). -/
def segsOf (line : Line) : List (Point × Point) := line.zip line.tail

/-- The accumulator build of `render`: a fresh `width × height` grid of empty
cells, then every segment of every line is rasterised into it with the
segment slope as weight. -/
def buildCache (bres : Point → Point → List (ℕ × ℕ)) (raw : List Line)
    (width height : ℕ) : Cache :=
  raw.enum.foldl
    (fun c pair =>
      (segsOf pair.2).foldl
        (fun c2 pq =>
          brensenhamArr bres pq.1 pq.2 c2 pair.1
            ((pq.2.y - pq.1.y) / (pq.2.x - pq.1.x)))
        c)
    ((List.range width).map (fun _ => (List.range height).map (fun _ => ([] : Cell))))

/-- A scale collaborator: the data-to-pixel map together with its pixel
range array (`range` has two entries; the source computes the surface
extent as `Math.abs(range.reduce((p, v) => p - v))`). -/
structure Scale where
  scale : ℚ → ℚ
  range : ℤ × ℤ

/-- The facade state: the fields of an `AliTVSTree` instance.  The kd-tree
field is derived data (`pixelOf`); the mutable cache field is explicit. -/
structure TreeState where
  raw : List Line
  xScale : Scale
  yScale : Scale
  slopePixelCache : Option Cache

/-- The pixel-level data computed in the constructor and held by the
kd-tree: every raw point mapped through both scales. -/
def pixelOf (s : TreeState) : List Line :=
  s.raw.map (fun line => line.map (fun p => (⟨s.xScale.scale p.x, s.yScale.scale p.y⟩ : Point)))

/-- The surface width used by `render`:
`Math.abs(this._xScale.range.reduce((p, v) => p - v))`. -/
def renderW (s : TreeState) : ℕ := (s.xScale.range.1 - s.xScale.range.2).natAbs

/-- The surface height used by `render`, from the y scale range. -/
def renderH (s : TreeState) : ℕ := (s.yScale.range.1 - s.yScale.range.2).natAbs

/-- The accumulator used by one `render` call:
`if (!this._slopePixelCache) { ...build...; this._slopePixelCache = cache }`. -/
def renderCache (bres : Point → Point → List (ℕ × ℕ)) (s : TreeState) : Cache :=
  match s.slopePixelCache with
  | some c => c
  | none => buildCache bres s.raw (renderW s) (renderH s)

/-- The state transition of `render` on the cache field, paired with the
accumulator the call uses. -/
def renderStep (bres : Point → Point → List (ℕ × ℕ)) (s : TreeState) :
    Cache × TreeState :=
  (renderCache bres s, { s with slopePixelCache := some (renderCache bres s) })

/-- Membership in the requested id subset
(`fastMapping[id] = 1`, looked up by key). -/
def fastMember (ids : List ℕ) (id : ℕ) : Bool := ids.contains id

/-- The weight of one pixel of the temp buffer: over the entries of the cell
`_slopePixelCache[col][row]`, sum the stored slopes of the subset members
when `normalize` is set, else count the subset members. -/
def pixelWeight (cache : Cache) (ids : List ℕ) (normalize : Bool) (col row : ℕ) : ℚ :=
  let pixelCache := (cache.getD col []).getD row []
  if normalize then
    pixelCache.foldl (fun p v => p + (if fastMember ids v.1 then v.2 else 0)) 0
  else
    pixelCache.foldl (fun p v => p + (if fastMember ids v.1 then 1 else 0)) 0

/-- The flat weight buffer of `render`
(`new Float32Array(width*height).map((_, i) => ...)`, `row = i % height`,
`col = floor(i / height)`). -/
def tempBuffer (cache : Cache) (ids : List ℕ) (normalize : Bool)
    (width height : ℕ) : List ℚ :=
  (List.range (width * height)).map
    (fun i => pixelWeight cache ids normalize (i / height) (i % height))

/-- JS `Math.round`: round half toward positive infinity. -/
def jsRound (q : ℚ) : ℤ := ⌊q + 1 / 2⌋

/-- The maximum weight of `render`:
`Math.ceil(tempBuffer.reduce((p, v) => Math.max(p, v)))`.  A `reduce`
without initial value throws on an empty buffer, modelled by `none`. -/
def maxWeightOf : List ℚ → Option ℤ
  | [] => none
  | h :: t => some ⌈t.foldl max h⌉

/-- The quantised colormap ratio of one pixel:
`Math.round(tempBuffer[i * height + j] / maxWeight * 10000)`. -/
def ratioAt (buf : List ℚ) (height : ℕ) (maxW : ℤ) (i j : ℕ) : ℤ :=
  jsRound (buf.getD (i * height + j) 0 / (maxW : ℚ) * 10000)

/-- The RGBA value written for pixel `(i, j)`: RGB from the colormap applied
to `ratio / 10000` (the per-ratio memoisation of the source is transparent
for a pure colormap), alpha `0` when `ratio <= 0` else `255`. -/
def pixelRGBA (colormap : ℚ → ℕ × ℕ × ℕ) (buf : List ℚ) (height : ℕ)
    (maxW : ℤ) (i j : ℕ) : (ℕ × ℕ × ℕ) × ℕ :=
  (colormap ((ratioAt buf height maxW i j : ℚ) / 10000),
    if ratioAt buf height maxW i j ≤ 0 then 0 else 255)

/-- The five filter modes of `getPixelData` (the source tags them with a
string `type` field). -/
inductive FilterOption where
  | brushBox (lowX lowY highX highY : ℚ)
  | brushX (lowX highX : ℚ)
  | brushY (lowY highY : ℚ)
  | angular (lowX lowSlope highX highSlope : ℚ)
  | attr (fieldVal : Point → ℚ) (values : List ℚ)

/-- An `Array.prototype.filter` whose predicate can throw: evaluates the
predicate left to right, `none` aborts the whole call. -/
def optionFilter (p : α → Option Bool) : List α → Option (List α)
  | [] => some []
  | a :: t =>
    match p a with
    | none => none
    | some b => (optionFilter p t).map (fun rest => if b then a :: rest else rest)

/-- The trailing `if (filter) resultData = resultData.filter(...)` step of
`getPixelData` and `getSelectedLines`. -/
def applyPost (post : Option (Line → Bool)) (resultData : List Line) : List Line :=
  match post with
  | some f => resultData.filter f
  | none => resultData

/-- The `getPixelData` query of the facade: index candidates, per-line
refinement, mapping back to raw lines, optional post filter.  The returned
state is the receiver, unchanged: the method body assigns no field.  `none`
as first component models a thrown exception. -/
def getPixelData (s : TreeState) (options : FilterOption) (atanF : ℚ → ℚ)
    (post : Option (Line → Bool)) : Option (List Line) × TreeState :=
  let resultData : Option (List Line) :=
    match options with
    | .brushBox lowX lowY highX highY =>
      some (((kdtreeBrush (pixelOf s) (toE lowX) (toE lowY) (toE highX) (toE highY)).filter
        (fun id => brushBoxFilter (s.raw.getD id []) lowX lowY highX highY)).map
        (fun index => s.raw.getD index []))
    | .brushX lowX highX =>
      some (((kdtreeBrush (pixelOf s) (toE lowX) ⊥ (toE highX) ⊤).filter
        (fun id => brushXFilter (s.raw.getD id []) lowX highX)).map
        (fun index => s.raw.getD index []))
    | .brushY lowY highY =>
      some (((kdtreeBrush (pixelOf s) ⊥ (toE lowY) ⊤ (toE highY)).filter
        (fun id => brushYFilter (s.raw.getD id []) lowY highY (fun _ _ => ⊥))).map
        (fun index => s.raw.getD index []))
    | .angular lowX lowSlope highX highSlope =>
      (optionFilter
        (fun id => angularFilter (s.raw.getD id []) lowX lowSlope highX highSlope atanF)
        (kdtreeAngular (pixelOf s) lowX highX)).map
        (fun indices => indices.map (fun index => s.raw.getD index []))
    | .attr fieldVal values =>
      some (s.raw.filter (fun line => line.all (fun pt => values.contains (fieldVal pt))))
  (resultData.map (applyPost post), s)

/-- The `getCrossPoints` query of the facade.  On an empty index the source
evaluates `this._kdtree.knn([x, y], 1)[0].id` with an empty `knn` result and
throws, modelled by `none`. -/
def getCrossPoints (s : TreeState) (x y : ℚ) :
    Option ((ℚ × ℚ) × Line × Line) × TreeState :=
  match (kdtreeKnn (pixelOf s) x y 1).head? with
  | none => (none, s)
  | some index =>
    let data := s.raw.getD index []
    let dataToPoint := data.map
      (fun p => (⟨s.xScale.scale p.x, s.yScale.scale p.y⟩ : Point))
    let closestPoint := getClosestPointOnLines x y dataToPoint
    (some ((closestPoint.x, closestPoint.y), data, dataToPoint), s)

/-- The `getHoverLines` query of the facade: the radius hits, truncated to
`topN`, mapped to raw lines. -/
def getHoverLines (s : TreeState) (x y r : ℚ) (topN : ℕ) :
    ((ℚ × ℚ) × List Line) × TreeState :=
  (((x, y), ((kdtreeRnn (pixelOf s) x y r).take topN).map
    (fun index => s.raw.getD index [])), s)

/-- The `getSelectedLines` query of the facade: all raw lines through the
optional predicate. -/
def getSelectedLines (s : TreeState) (post : Option (Line → Bool)) :
    List Line × TreeState :=
  (applyPost post s.raw, s)

/-- A facade state over an empty data collection. -/
def emptyTree (xs ys : Scale) : TreeState :=
  { raw := [], xScale := xs, yScale := ys, slopePixelCache := none }

/-- The identity scale with a degenerate pixel range, for concrete
instances. -/
def idScale : Scale := { scale := (fun q => q), range := (0, 0) }

/-- A touched-cells pattern that stamps nothing, for concrete instances. -/
def bres0 : Point → Point → List (ℕ × ℕ) := fun _ _ => []

/-- The identity scale over a pixel range of extent 2. -/
def scale2 : Scale := { scale := (fun q => q), range := (2, 0) }

/-- The identity scale over a pixel range of extent 3. -/
def scale3 : Scale := { scale := (fun q => q), range := (3, 0) }

/-- Concrete facade state for the cache-resize scenario: no data, a 2 × 2
pixel surface, cache not yet built. -/
def cacheS0 : TreeState :=
  { raw := [], xScale := scale2, yScale := scale2, slopePixelCache := none }

/-- The state after a first render on the 2 × 2 surface. -/
def cacheS1 : TreeState := (renderStep bres0 cacheS0).2

/-- The same instance after the scale ranges changed to a 3 × 3 surface. -/
def cacheS2 : TreeState :=
  { cacheS1 with xScale := scale3, yScale := scale3 }

/-- A constant colormap, for concrete instances. -/
def cm0 : ℚ → ℕ × ℕ × ℕ := fun _ => (0, 0, 0)

/-- A weight buffer whose second pixel has a small positive weight
(`1/25000` of the maximum), for the alpha quantisation scenario. -/
def buf6 : List ℚ := [1, 1 / 25000]

/-- Dimension predicate of an accumulator: `w` columns, each of `h` cells. -/
def CacheDims (c : Cache) (w h : ℕ) : Prop :=
  c.length = w ∧ ∀ k : ℕ, k < w → ((c.getD k []).length) = h

/-! ### Infrastructure lemmas -/

theorem toE_le_toE {a b : ℚ} : toE a ≤ toE b ↔ a ≤ b := by
  simp [toE]

theorem toE_lt_toE {a b : ℚ} : toE a < toE b ↔ a < b := by
  simp [toE]

theorem mem_intRange {lo hi i : ℤ} : i ∈ intRange lo hi ↔ lo ≤ i ∧ i ≤ hi := by
  unfold intRange
  rw [List.mem_map]
  constructor
  · rintro ⟨k, hk, rfl⟩
    rw [List.mem_range] at hk
    omega
  · intro h
    refine ⟨(i - lo).toNat, ?_, ?_⟩
    · rw [List.mem_range]
      omega
    · omega

theorem all_intRange {p : ℤ → Bool} {lo hi : ℤ} (h : (intRange lo hi).all p = true)
    {i : ℤ} (hlo : lo ≤ i) (hhi : i ≤ hi) : p i = true := by
  rw [List.all_eq_true] at h
  exact h i (mem_intRange.mpr ⟨hlo, hhi⟩)

instance (line : Line) : Decidable (SortedX line) :=
  inferInstanceAs (Decidable (line.Pairwise (fun p q : Point => p.x ≤ q.x)))

theorem dGet_natCast (line : Line) (i : ℕ) : dGet line (i : ℤ) = line.getD i ⟨0, 0⟩ := by
  simp [dGet]

theorem sortedX_dGet {line : Line} (hs : SortedX line) {i j : ℤ}
    (h0 : 0 ≤ i) (hij : i ≤ j) (hj : j < (line.length : ℤ)) :
    (dGet line i).x ≤ (dGet line j).x := by
  have hp : line.Pairwise (fun p q : Point => p.x ≤ q.x) := hs
  have hjn : j.toNat < line.length := by omega
  rcases eq_or_lt_of_le (show i.toNat ≤ j.toNat by omega) with he | hlt
  · simp only [dGet, he, le_refl]
  · have h := List.pairwise_iff_getElem.mp hp i.toNat j.toNat (by omega) hjn hlt
    simpa only [dGet, List.getD_eq_getElem?_getD, List.getElem?_eq_getElem (by omega : i.toNat < line.length),
      List.getElem?_eq_getElem hjn, Option.getD_some] using h

theorem lpLoop_le (line : Line) (minX : ERat) (hs : SortedX line) :
    ∀ (fuel : ℕ) (l r lp : ℤ),
      (r + 1 - l).toNat < fuel → 0 ≤ l → r ≤ (line.length : ℤ) - 1 → lp ≤ r + 1 →
      (∀ j : ℤ, 0 ≤ j → j < l → ¬ minX ≤ toE (dGet line j).x) →
      ∀ i : ℤ, 0 ≤ i → i < (line.length : ℤ) → minX ≤ toE (dGet line i).x →
        lpLoop line minX fuel l r lp ≤ i := by
  intro fuel
  induction fuel with
  | zero => intro l r lp hfuel; omega
  | succ fuel ih =>
    intro l r lp hfuel h0l hrlen hlp hinv i hi0 hilen hix
    simp only [lpLoop]
    split
    case isTrue hlr =>
      split
      case isTrue hx =>
        exact ih l ((l + r) / 2 - 1) ((l + r) / 2) (by omega) h0l (by omega) (by omega)
          hinv i hi0 hilen hix
      case isFalse hx =>
        refine ih ((l + r) / 2 + 1) r lp (by omega) (by omega) hrlen (by omega)
          (fun j hj0 hjlt => ?_) i hi0 hilen hix
        by_cases hjl : j < l
        · exact hinv j hj0 hjl
        · intro hcon
          exact hx (le_trans hcon
            (toE_le_toE.mpr (sortedX_dGet hs hj0 (by omega) (by omega))))
    case isFalse hlr =>
      by_cases hil : i < l
      · exact absurd hix (hinv i hi0 hil)
      · omega

theorem searchLp_le {line : Line} {minX : ERat} (hs : SortedX line)
    {i : ℤ} (hi0 : 0 ≤ i) (hilen : i < (line.length : ℤ))
    (hix : minX ≤ toE (dGet line i).x) :
    searchLp line minX ≤ i := by
  exact lpLoop_le line minX hs (line.length + 1) 0 ((line.length : ℤ) - 1) 0
    (by omega) le_rfl (by omega) (by omega) (fun j hj0 hjl => absurd hjl (by omega))
    i hi0 hilen hix

theorem rpLoop_ge (line : Line) (maxX : ERat) (hs : SortedX line) :
    ∀ (fuel : ℕ) (l r rp : ℤ),
      (r + 1 - l).toNat < fuel → 0 ≤ l → r ≤ (line.length : ℤ) - 1 → l - 1 ≤ rp →
      (∀ j : ℤ, r < j → j < (line.length : ℤ) → ¬ toE (dGet line j).x ≤ maxX) →
      ∀ i : ℤ, 0 ≤ i → i < (line.length : ℤ) → toE (dGet line i).x ≤ maxX →
        i ≤ rpLoop line maxX fuel l r rp := by
  intro fuel
  induction fuel with
  | zero => intro l r rp hfuel; omega
  | succ fuel ih =>
    intro l r rp hfuel h0l hrlen hrp hinv i hi0 hilen hix
    simp only [rpLoop]
    split
    case isTrue hlr =>
      split
      case isTrue hx =>
        exact ih ((l + r) / 2 + 1) r ((l + r) / 2) (by omega) (by omega) hrlen (by omega)
          hinv i hi0 hilen hix
      case isFalse hx =>
        refine ih l ((l + r) / 2 - 1) rp (by omega) h0l (by omega) hrp
          (fun j hjgt hjlt => ?_) i hi0 hilen hix
        by_cases hjr : r < j
        · exact hinv j hjr hjlt
        · intro hcon
          exact hx (le_trans
            (toE_le_toE.mpr (sortedX_dGet hs (by omega) (by omega) hjlt)) hcon)
    case isFalse hlr =>
      by_cases hir : r < i
      · exact absurd hix (hinv i hir hilen)
      · omega

theorem searchRp_ge {line : Line} {maxX : ERat} (hs : SortedX line)
    {i : ℤ} (hi0 : 0 ≤ i) (hilen : i < (line.length : ℤ))
    (hix : toE (dGet line i).x ≤ maxX) :
    i ≤ searchRp line maxX := by
  exact rpLoop_ge line maxX hs (line.length + 1) 0 ((line.length : ℤ) - 1)
    ((line.length : ℤ) - 1) (by omega) le_rfl (by omega) (by omega)
    (fun j hjgt hjlt => absurd hjlt (by omega)) i hi0 hilen hix

/-! ### C1: brush-box interior soundness -/

/-- C1.  Brush-box interior soundness: over a candidate line whose points are
sorted ascending in pixel x, if the brush-box refinement filter of
`getPixelData` accepts the line then every point of the line whose x lies in
`[lowX, highX]` has y within `[lowY, highY]`. -/
theorem brushBox_interior_sound (line : Line) (lowX lowY highX highY : ℚ)
    (hs : SortedX line)
    (hacc : brushBoxFilter line lowX lowY highX highY = true) :
    ∀ i : ℕ, i < line.length → lowX ≤ (line.getD i ⟨0, 0⟩).x →
      (line.getD i ⟨0, 0⟩).x ≤ highX →
      lowY ≤ (line.getD i ⟨0, 0⟩).y ∧ (line.getD i ⟨0, 0⟩).y ≤ highY := by
  intro i hi hxl hxh
  unfold brushBoxFilter brushRefine at hacc
  simp only [Bool.and_eq_true] at hacc
  have h1 : searchLp line (toE lowX) ≤ (i : ℤ) := by
    refine searchLp_le hs (by omega) (by omega) ?_
    rw [dGet_natCast]
    exact toE_le_toE.mpr hxl
  have h2 : (i : ℤ) ≤ searchRp line (toE highX) := by
    refine searchRp_ge hs (by omega) (by omega) ?_
    rw [dGet_natCast]
    exact toE_le_toE.mpr hxh
  have hp := all_intRange hacc.1.1 h1 h2
  rw [dGet_natCast] at hp
  simp only [Bool.not_eq_true', Bool.or_eq_false_iff, decide_eq_false_iff_not,
    toE_lt_toE, gt_iff_lt, not_lt] at hp
  exact ⟨hp.1, hp.2⟩

/-- Witness for the brush-box interior soundness at a concrete sorted line
and box. -/
theorem brushBox_interior_sound_witness :
    SortedX [(⟨1, 5⟩ : Point), ⟨2, 6⟩, ⟨3, 7⟩] ∧
    ((4 : ℚ) ≤ (([(⟨1, 5⟩ : Point), ⟨2, 6⟩, ⟨3, 7⟩] : Line).getD 1 ⟨0, 0⟩).y ∧
      (([(⟨1, 5⟩ : Point), ⟨2, 6⟩, ⟨3, 7⟩] : Line).getD 1 ⟨0, 0⟩).y ≤ 8) :=
  ⟨by decide, brushBox_interior_sound _ 0 4 4 8 (by decide) (by decide) 1 (by decide)
    (by decide) (by decide)⟩

/-! ### C2: the right boundary crossing is interpolated at the wrong bound -/

/-- C2 (code bug).  The source interpolates the right boundary segment at
`minX` (`mix(line[rp], line[rp + 1], minX)`) instead of `maxX`.  At the
concrete sorted line below the filter accepts, yet the boundary crossing at
the high-x bound of the box — `mix(line[rp], line[rp+1], highX)` with
`rp = 1 < line.length - 1` — has y = 65, far outside `[lowY, highY] = [0, 10]`,
so the interpolated path inside the box does not stay within bounds. -/
theorem brushBox_right_boundary_at_lowX :
    brushBoxFilter [(⟨-1, 5⟩ : Point), ⟨5, 5⟩, ⟨11, 365⟩] 5 0 6 10 = true ∧
    SortedX [(⟨-1, 5⟩ : Point), ⟨5, 5⟩, ⟨11, 365⟩] ∧
    searchRp [(⟨-1, 5⟩ : Point), ⟨5, 5⟩, ⟨11, 365⟩] (toE 6) = 1 ∧
    ((1 : ℤ) < ([(⟨-1, 5⟩ : Point), ⟨5, 5⟩, ⟨11, 365⟩] : Line).length - 1) ∧
    ¬ ((mix ⟨5, 5⟩ ⟨11, 365⟩ 6).y ≤ 10) := by
  refine ⟨?_, by decide, by decide, by decide, ?_⟩
  · have hlp : searchLp [(⟨-1, 5⟩ : Point), ⟨5, 5⟩, ⟨11, 365⟩] (toE 5) = 1 := by decide
    have hrp : searchRp [(⟨-1, 5⟩ : Point), ⟨5, 5⟩, ⟨11, 365⟩] (toE 6) = 1 := by decide
    unfold brushBoxFilter brushRefine
    rw [hlp, hrp]
    norm_num [intRange, dGet, mix, toE_le_toE, toE_lt_toE, toE, List.getD]
    decide
  · norm_num [mix]

/-! ### C3: angular filter slope containment -/

theorem div_sub_comm (a b c d : ℚ) : (a - b) / (c - d) = (b - a) / (d - c) := by
  rw [← neg_div_neg_eq, neg_sub, neg_sub]

/-- C3.  Angular filter slope containment: over an x-sorted candidate line,
if the angular refinement filter of `getPixelData` accepts the line then the
local segment slope — `atanF` of `Δy/Δx`, which is `atan2 Δy Δx` for the
real arctangent whenever `Δx > 0` — of every adjacent point pair inside
`[lp, rp]` and of the two boundary segments just outside it lies within
`[lowSlope, highSlope]`. -/
theorem angular_slope_sound (line : Line) (lowX lowSlope highX highSlope : ℚ)
    (atanF : ℚ → ℚ) (_hs : SortedX line)
    (hacc : angularFilter line lowX lowSlope highX highSlope atanF = some true) :
    (∀ i : ℤ, searchLp line (toE lowX) ≤ i → i < searchRp line (toE highX) →
      lowSlope ≤ atanF (((dGet line (i + 1)).y - (dGet line i).y) /
          ((dGet line (i + 1)).x - (dGet line i).x)) ∧
        atanF (((dGet line (i + 1)).y - (dGet line i).y) /
          ((dGet line (i + 1)).x - (dGet line i).x)) ≤ highSlope) ∧
    (searchLp line (toE lowX) ≠ 0 →
      lowSlope ≤ atanF (((dGet line (searchLp line (toE lowX))).y -
            (dGet line (searchLp line (toE lowX) - 1)).y) /
          ((dGet line (searchLp line (toE lowX))).x -
            (dGet line (searchLp line (toE lowX) - 1)).x)) ∧
        atanF (((dGet line (searchLp line (toE lowX))).y -
            (dGet line (searchLp line (toE lowX) - 1)).y) /
          ((dGet line (searchLp line (toE lowX))).x -
            (dGet line (searchLp line (toE lowX) - 1)).x)) ≤ highSlope) ∧
    (searchRp line (toE highX) < (line.length : ℤ) - 1 →
      lowSlope ≤ atanF (((dGet line (searchRp line (toE highX) + 1)).y -
            (dGet line (searchRp line (toE highX))).y) /
          ((dGet line (searchRp line (toE highX) + 1)).x -
            (dGet line (searchRp line (toE highX))).x)) ∧
        atanF (((dGet line (searchRp line (toE highX) + 1)).y -
            (dGet line (searchRp line (toE highX))).y) /
          ((dGet line (searchRp line (toE highX) + 1)).x -
            (dGet line (searchRp line (toE highX))).x)) ≤ highSlope) := by
  cases hh : line.head? with
  | none => rw [angularFilter, hh] at hacc; exact Option.noConfusion hacc
  | some p0 =>
    cases hl : line.getLast? with
    | none => rw [angularFilter, hh, hl] at hacc; exact Option.noConfusion hacc
    | some pn =>
      rw [angularFilter, hh, hl] at hacc
      rw [apply_ite (f := fun o : Option Bool => o = some true)] at hacc
      split at hacc
      · exact absurd (Option.some.inj hacc) (by decide)
      · have hb := Option.some.inj hacc
        simp only [Bool.and_eq_true] at hb
        obtain ⟨⟨hA, hB⟩, hC⟩ := hb
        refine ⟨fun i h1 h2 => ?_, fun hlp => ?_, fun hrp => ?_⟩
        · have hp := all_intRange hA h1 (by omega)
          simp only [Bool.not_eq_true', Bool.or_eq_false_iff,
            decide_eq_false_iff_not, not_lt, gt_iff_lt] at hp
          exact ⟨hp.1, hp.2⟩
        · rw [if_pos hlp] at hB
          simp only [Bool.not_eq_true', Bool.or_eq_false_iff,
            decide_eq_false_iff_not, not_lt, gt_iff_lt] at hB
          rw [div_sub_comm]
          exact ⟨hB.1, hB.2⟩
        · rw [if_pos hrp] at hC
          simp only [Bool.not_eq_true', Bool.or_eq_false_iff,
            decide_eq_false_iff_not, not_lt, gt_iff_lt] at hC
          exact ⟨hC.1, hC.2⟩

/-- Witness for the angular slope containment at a concrete flat sorted line
and the constant slope function. -/
theorem angular_slope_sound_witness :
    SortedX [(⟨0, 0⟩ : Point), ⟨1, 0⟩, ⟨2, 0⟩] ∧ ((-1 : ℚ) ≤ 0 ∧ (0 : ℚ) ≤ 1) :=
  ⟨by decide, (angular_slope_sound [(⟨0, 0⟩ : Point), ⟨1, 0⟩, ⟨2, 0⟩] 0 (-1) 2 1
      (fun _ => 0) (by decide) (by decide)).1 0 (by decide) (by decide)⟩

/-! ### C8: degenerate polylines -/

/-- C8 counterexample: a zero-point candidate makes the angular filter read
`line[0].x` of `undefined` and throw, aborting the whole query — it is not
skipped or treated vacuously. -/
theorem angular_empty_crash :
    angularFilter [] 0 0 1 1 (fun q => q) = none := rfl

/-- C8 amended: the three brush filters treat a zero-point candidate as a
vacuous accept without crashing, and the angular filter handles one-point
candidates without crashing; only a zero-point candidate in the angular
filter throws (see the counterexample). -/
theorem degenerate_line_handling :
    (∀ lowX lowY highX highY : ℚ, brushBoxFilter [] lowX lowY highX highY = true) ∧
    (∀ lowX highX : ℚ, brushXFilter [] lowX highX = true) ∧
    (∀ (lowY highY : ℚ) (mneg : Point → Point → ERat),
      brushYFilter [] lowY highY mneg = true) ∧
    (∀ (p : Point) (lowX lowSlope highX highSlope : ℚ) (atanF : ℚ → ℚ),
      (angularFilter [p] lowX lowSlope highX highSlope atanF).isSome = true) := by
  refine ⟨fun lowX lowY highX highY => rfl, fun lowX highX => rfl,
    fun lowY highY mneg => rfl, fun p lowX lowSlope highX highSlope atanF => ?_⟩
  simp only [angularFilter, List.head?_cons, List.getLast?_singleton]
  split <;> rfl

/-! ### C9: queries do not mutate the facade state -/

/-- C9.  Query frame property: none of the query operations
`getCrossPoints`, `getHoverLines`, `getPixelData`, `getSelectedLines`
changes the facade state — raw data, derived index data and the slope-pixel
accumulator cache are all returned unchanged (the source methods assign no
field). -/
theorem queries_leave_state_unchanged :
    (∀ (s : TreeState) (x y : ℚ), (getCrossPoints s x y).2 = s) ∧
    (∀ (s : TreeState) (x y r : ℚ) (topN : ℕ), (getHoverLines s x y r topN).2 = s) ∧
    (∀ (s : TreeState) (options : FilterOption) (atanF : ℚ → ℚ)
      (post : Option (Line → Bool)), (getPixelData s options atanF post).2 = s) ∧
    (∀ (s : TreeState) (post : Option (Line → Bool)), (getSelectedLines s post).2 = s) := by
  refine ⟨fun s x y => ?_, fun s x y r topN => rfl,
    fun s options atanF post => rfl, fun s post => rfl⟩
  unfold getCrossPoints
  split <;> rfl

/-! ### C10: the brush-x refinement is vacuous -/

/-- C10.  Brush-x vacuity: the y bounds of the `brush-x` branch are the
infinities, so neither the interior scan nor the boundary interpolation can
ever reject — the refinement accepts every line, and `getPixelData` with a
`brush-x` option returns exactly the index candidates mapped to their raw
lines. -/
theorem brushX_refinement_vacuous :
    (∀ (line : Line) (lowX highX : ℚ), brushXFilter line lowX highX = true) ∧
    (∀ (s : TreeState) (lowX highX : ℚ) (atanF : ℚ → ℚ),
      (getPixelData s (FilterOption.brushX lowX highX) atanF none).1 =
        some ((kdtreeBrush (pixelOf s) (toE lowX) ⊥ (toE highX) ⊤).map
          (fun index => s.raw.getD index []))) := by
  have hfilter : ∀ (line : Line) (lowX highX : ℚ), brushXFilter line lowX highX = true := by
    intro line lowX highX
    unfold brushXFilter brushRefine
    rw [Bool.and_eq_true, Bool.and_eq_true]
    refine ⟨⟨?_, ?_⟩, ?_⟩
    · rw [List.all_eq_true]
      intro i _
      simp only [Bool.not_eq_true', Bool.or_eq_false_iff, decide_eq_false_iff_not]
      exact ⟨not_lt_bot, not_top_lt⟩
    · split
      · simp only [Bool.not_eq_true', Bool.or_eq_false_iff, decide_eq_false_iff_not]
        exact ⟨not_lt_bot, not_top_lt⟩
      · rfl
    · split
      · simp only [Bool.not_eq_true', Bool.or_eq_false_iff, decide_eq_false_iff_not]
        exact ⟨not_lt_bot, not_top_lt⟩
      · rfl
  refine ⟨hfilter, fun s lowX highX atanF => ?_⟩
  unfold getPixelData
  dsimp only
  rw [List.filter_eq_self.mpr (fun a _ => hfilter (s.raw.getD a []) lowX highX)]
  rfl

/-! ### C4: empty data set -/

/-- C4 counterexample: on an empty data set `getCrossPoints` is an error,
not an empty result — `knn` returns no hit and `knn(...)[0].id` dereferences
`undefined` (modelled by `none`). -/
theorem getCrossPoints_empty_crash :
    (getCrossPoints (emptyTree idScale idScale) 0 0).1 = none := rfl

/-- C4 amended: on an empty data set the radius query and all five filtered
query modes return empty results without error; only `getCrossPoints`
throws (see the counterexample). -/
theorem empty_data_queries (xs ys : Scale) :
    (∀ (x y r : ℚ) (topN : ℕ),
      (getHoverLines (emptyTree xs ys) x y r topN).1 = ((x, y), [])) ∧
    (∀ (options : FilterOption) (atanF : ℚ → ℚ) (post : Option (Line → Bool)),
      (getPixelData (emptyTree xs ys) options atanF post).1 = some []) := by
  refine ⟨fun x y r topN => ?_, fun options atanF post => ?_⟩
  · unfold getHoverLines
    rw [show kdtreeRnn (pixelOf (emptyTree xs ys)) x y r = [] from rfl, List.take_nil]
    rfl
  · cases options <;> cases post <;> rfl

/-! ### C5: the slope-pixel accumulator cache -/

theorem length_stampCell (c : Cache) (cx cy id : ℕ) (w : ℚ) :
    (stampCell c cx cy id w).length = c.length := by
  simp [stampCell]

theorem getD_length_stampCell (c : Cache) (cx cy id : ℕ) (w : ℚ) (k : ℕ) :
    ((stampCell c cx cy id w).getD k []).length = (c.getD k []).length := by
  unfold stampCell
  by_cases hcx : cx < c.length
  · by_cases hk : k = cx
    · subst hk
      rw [List.getD_eq_getElem?_getD, List.getElem?_set_self hcx]
      simp only [Option.getD_some, List.length_set, List.getD_eq_getElem?_getD]
    · rw [List.getD_eq_getElem?_getD, List.getElem?_set_ne (Ne.symm hk),
        ← List.getD_eq_getElem?_getD]
  · rw [List.set_eq_of_length_le (by omega)]

theorem cacheDims_stampCell {c : Cache} {w h : ℕ} (hd : CacheDims c w h)
    (cx cy id : ℕ) (wt : ℚ) : CacheDims (stampCell c cx cy id wt) w h :=
  ⟨by rw [length_stampCell]; exact hd.1,
    fun k hk => by rw [getD_length_stampCell]; exact hd.2 k hk⟩

theorem cacheDims_brensenhamArr {c : Cache} {w h : ℕ} (hd : CacheDims c w h)
    (bres : Point → Point → List (ℕ × ℕ)) (p q : Point) (id : ℕ) (slope : ℚ) :
    CacheDims (brensenhamArr bres p q c id slope) w h := by
  unfold brensenhamArr
  generalize bres p q = cells
  induction cells generalizing c with
  | nil => exact hd
  | cons a t ih =>
    rw [List.foldl_cons]
    exact ih (cacheDims_stampCell hd a.1 a.2 id slope)

theorem cacheDims_segFold {w h : ℕ} (bres : Point → Point → List (ℕ × ℕ)) (id : ℕ) :
    ∀ (segs : List (Point × Point)) (c : Cache), CacheDims c w h →
      CacheDims (segs.foldl (fun c2 pq => brensenhamArr bres pq.1 pq.2 c2 id
        ((pq.2.y - pq.1.y) / (pq.2.x - pq.1.x))) c) w h := by
  intro segs
  induction segs with
  | nil => intro c hd; exact hd
  | cons a t ih =>
    intro c hd
    rw [List.foldl_cons]
    exact ih _ (cacheDims_brensenhamArr hd bres a.1 a.2 id _)

theorem cacheDims_buildCache (bres : Point → Point → List (ℕ × ℕ))
    (raw : List Line) (w h : ℕ) : CacheDims (buildCache bres raw w h) w h := by
  unfold buildCache
  have hinit : CacheDims
      ((List.range w).map fun _ => (List.range h).map fun _ => ([] : Cell)) w h := by
    refine ⟨by simp, fun k hk => ?_⟩
    rw [List.getD_eq_getElem?_getD, List.getElem?_map, List.getElem?_range hk]
    simp
  suffices hstep : ∀ (pairs : List (ℕ × Line)) (c : Cache), CacheDims c w h →
      CacheDims (pairs.foldl (fun c pair => (segsOf pair.2).foldl (fun c2 pq =>
        brensenhamArr bres pq.1 pq.2 c2 pair.1
          ((pq.2.y - pq.1.y) / (pq.2.x - pq.1.x))) c) c) w h by
    exact hstep _ _ hinit
  intro pairs
  induction pairs with
  | nil => intro c hd; exact hd
  | cons a t ih =>
    intro c hd
    rw [List.foldl_cons]
    exact ih _ (cacheDims_segFold bres a.1 (segsOf a.2) c hd)

/-- C5 amended: the accumulator is built at most once per facade instance —
a fresh build at the current surface dimensions has exactly those
dimensions, but once `_slopePixelCache` is set every later render reuses it
unchanged, whatever the current scale ranges are; there is no invalidation
on resize. -/
theorem slope_cache_behaviour :
    (∀ (bres : Point → Point → List (ℕ × ℕ)) (raw : List Line) (w h : ℕ),
      CacheDims (buildCache bres raw w h) w h) ∧
    (∀ (bres : Point → Point → List (ℕ × ℕ)) (s : TreeState) (c : Cache),
      s.slopePixelCache = some c → (renderStep bres s).1 = c) ∧
    (∀ (bres : Point → Point → List (ℕ × ℕ)) (s : TreeState),
      s.slopePixelCache = none →
        (renderStep bres s).1 = buildCache bres s.raw (renderW s) (renderH s)) := by
  refine ⟨cacheDims_buildCache, fun bres s c hc => ?_, fun bres s hn => ?_⟩
  · unfold renderStep renderCache
    rw [hc]
  · unfold renderStep renderCache
    rw [hn]

/-- Witness for the cache reuse: the second render on the concrete instance
gets exactly the accumulator built by the first render. -/
theorem slope_cache_behaviour_witness :
    (renderStep bres0 cacheS1).1 = buildCache bres0 [] 2 2 :=
  slope_cache_behaviour.2.1 bres0 cacheS1 (buildCache bres0 [] 2 2) rfl

/-- C5 counterexample: after the scale ranges change from a 2×2 to a 3×3
surface, the second render still uses the cached 2×2 accumulator — the cache
is not invalidated and its dimensions no longer match the surface. -/
theorem slope_cache_not_invalidated :
    renderW cacheS2 = 3 ∧ renderH cacheS2 = 3 ∧
    (renderStep bres0 cacheS2).1.length = 2 ∧
    ((renderStep bres0 cacheS2).1.getD 0 []).length = 2 := by
  exact ⟨rfl, rfl, rfl, rfl⟩

/-! ### C6: the colormap postcondition of render -/

theorem foldl_max_spec (a : ℚ) (t : List ℚ) :
    t.foldl max a ∈ a :: t ∧ ∀ z ∈ a :: t, z ≤ t.foldl max a := by
  induction t generalizing a with
  | nil =>
    refine ⟨by simp, fun z hz => ?_⟩
    rw [List.mem_singleton] at hz
    simp [hz]
  | cons b t ih =>
    rw [List.foldl_cons]
    obtain ⟨hmem, hbound⟩ := ih (max a b)
    constructor
    · rcases List.mem_cons.mp hmem with hm | hm
      · rw [hm]
        rcases max_choice a b with hc | hc <;> rw [hc] <;> simp
      · exact List.mem_cons_of_mem _ (List.mem_cons_of_mem _ hm)
    · intro z hz
      rcases List.mem_cons.mp hz with hz1 | hz2
      · rw [hz1]
        exact le_trans (le_max_left a b) (hbound _ (List.mem_cons_self _ _))
      · rcases List.mem_cons.mp hz2 with hz1 | hz3
        · rw [hz1]
          exact le_trans (le_max_right a b) (hbound _ (List.mem_cons_self _ _))
        · exact hbound _ (List.mem_cons_of_mem _ hz3)

theorem ratioAt_nonpos {buf : List ℚ} {height : ℕ} {maxW : ℤ} {i j : ℕ}
    (hm : 1 ≤ maxW) (hw : buf.getD (i * height + j) 0 ≤ 0) :
    ratioAt buf height maxW i j ≤ 0 := by
  unfold ratioAt jsRound
  have hmq : (0 : ℚ) < (maxW : ℚ) := by exact_mod_cast by omega
  have h1 : buf.getD (i * height + j) 0 / (maxW : ℚ) ≤ 0 :=
    div_nonpos_iff.mpr (Or.inr ⟨hw, le_of_lt hmq⟩)
  have hq : buf.getD (i * height + j) 0 / (maxW : ℚ) * 10000 + 1 / 2 ≤ 1 / 2 := by
    nlinarith
  calc ⌊buf.getD (i * height + j) 0 / (maxW : ℚ) * 10000 + 1 / 2⌋
      ≤ ⌊(1 / 2 : ℚ)⌋ := Int.floor_le_floor hq
    _ = 0 := by
        rw [Int.floor_eq_iff]
        constructor <;> norm_num

/-- C6 amended: `render` computes `maxWeight` as the ceiling of the maximum
buffer weight and colours each pixel with the colormap of the quantised
ratio; the alpha channel however is decided by the quantised ratio, not by
the raw weight: a nonpositive weight always gets alpha 0 and alpha 255
implies a positive weight, but a small positive weight whose ratio rounds
to 0 also gets alpha 0 (see the counterexample). -/
theorem render_colormap_behaviour :
    (∀ (hd : ℚ) (t : List ℚ), ∃ m : ℚ, maxWeightOf (hd :: t) = some ⌈m⌉ ∧
      m ∈ hd :: t ∧ ∀ z ∈ hd :: t, z ≤ m) ∧
    (∀ (cm : ℚ → ℕ × ℕ × ℕ) (buf : List ℚ) (height : ℕ) (maxW : ℤ) (i j : ℕ),
      (pixelRGBA cm buf height maxW i j).1 =
        cm ((ratioAt buf height maxW i j : ℚ) / 10000)) ∧
    (∀ (cm : ℚ → ℕ × ℕ × ℕ) (buf : List ℚ) (height : ℕ) (maxW : ℤ) (i j : ℕ),
      1 ≤ maxW → buf.getD (i * height + j) 0 ≤ 0 →
      (pixelRGBA cm buf height maxW i j).2 = 0) ∧
    (∀ (cm : ℚ → ℕ × ℕ × ℕ) (buf : List ℚ) (height : ℕ) (maxW : ℤ) (i j : ℕ),
      1 ≤ maxW → (pixelRGBA cm buf height maxW i j).2 = 255 →
      0 < buf.getD (i * height + j) 0) := by
  refine ⟨fun hd t => ⟨t.foldl max hd, rfl, (foldl_max_spec hd t).1, (foldl_max_spec hd t).2⟩,
    fun cm buf height maxW i j => rfl, fun cm buf height maxW i j hm hw => ?_,
    fun cm buf height maxW i j hm ha => ?_⟩
  · unfold pixelRGBA
    rw [if_pos (ratioAt_nonpos hm hw)]
  · by_contra hcon
    push_neg at hcon
    unfold pixelRGBA at ha
    rw [if_pos (ratioAt_nonpos hm hcon)] at ha
    exact absurd ha (by norm_num)

/-- Witness for the amended colormap behaviour: a pixel of weight −1 gets
alpha 0. -/
theorem render_colormap_behaviour_witness :
    (pixelRGBA cm0 [(-1 : ℚ)] 1 1 0 0).2 = 0 :=
  render_colormap_behaviour.2.2.1 cm0 [(-1 : ℚ)] 1 1 0 0 (by norm_num)
    (by norm_num [List.getD])

/-- C6 counterexample: in the buffer `[1, 1/25000]` the second pixel has a
strictly positive weight, yet its quantised ratio rounds to 0 and `render`
writes alpha 0 — not 255 as the claim (alpha 0 exactly for weight ≤ 0)
requires. -/
theorem alpha_not_weight_based :
    maxWeightOf buf6 = some 1 ∧ (0 : ℚ) < buf6.getD 1 0 ∧
    (pixelRGBA cm0 buf6 2 1 0 1).2 = 0 := by
  refine ⟨?_, by norm_num [buf6], ?_⟩
  · simp only [buf6, maxWeightOf, List.foldl_cons, List.foldl_nil]
    rw [max_eq_left (by norm_num)]
    norm_num
  · have hr : ratioAt buf6 2 1 0 1 = 0 := by
      unfold ratioAt jsRound buf6
      have he : ([(1 : ℚ), 1 / 25000].getD (0 * 2 + 1) 0) / ((1 : ℤ) : ℚ) * 10000 + 1 / 2
          = 9 / 10 := by
        norm_num [List.getD]
      rw [he, Int.floor_eq_iff]
      constructor <;> norm_num
    unfold pixelRGBA
    rw [hr]
    norm_num

/-! ### C7: rasterizer subset monotonicity -/

theorem fastMember_mem {ids : List ℕ} {id : ℕ} (h : fastMember ids id = true) :
    id ∈ ids := by
  simpa [fastMember] using h

theorem foldl_count_mono (A B : List ℕ) (hAB : ∀ id, id ∈ A → id ∈ B) :
    ∀ (cell : Cell) (a b : ℚ), a ≤ b →
      cell.foldl (fun p v => p + (if fastMember A v.1 then 1 else 0)) a ≤
        cell.foldl (fun p v => p + (if fastMember B v.1 then 1 else 0)) b := by
  intro cell
  induction cell with
  | nil => intro a b hab; exact hab
  | cons v t ih =>
    intro a b hab
    rw [List.foldl_cons, List.foldl_cons]
    refine ih _ _ (add_le_add hab ?_)
    by_cases hA : fastMember A v.1 = true
    · rw [if_pos hA, if_pos (show fastMember B v.1 = true by
        simpa [fastMember] using hAB v.1 (fastMember_mem hA))]
    · rw [if_neg hA]
      split <;> norm_num

/-- C7.  Rasterizer subset monotonicity: with `normalize = false` and the
same accumulator, the computed weight at every pixel for an id subset `A` is
at most the weight for any superset `B`. -/
theorem pixelWeight_subset_mono (cache : Cache) (A B : List ℕ) (col row : ℕ)
    (hAB : ∀ id, id ∈ A → id ∈ B) :
    pixelWeight cache A false col row ≤ pixelWeight cache B false col row := by
  unfold pixelWeight
  dsimp only
  exact foldl_count_mono A B hAB _ 0 0 le_rfl

/-- Witness for the subset monotonicity at a concrete one-pixel cache. -/
theorem pixelWeight_subset_mono_witness :
    pixelWeight [[[(0, (1 : ℚ)), (1, 1)]]] [0] false 0 0 ≤
      pixelWeight [[[(0, (1 : ℚ)), (1, 1)]]] [0, 1] false 0 0 :=
  pixelWeight_subset_mono _ [0] [0, 1] 0 0
    (fun id h => by
      rw [List.mem_singleton] at h
      simp [h])
